import Mathlib

/-!
Shallow embedding of the game-state engine of `server.js` (a two-player,
turn-based board game server).  JavaScript runtime behaviour is modelled
explicitly: array indexing with an out-of-range non-negative index yields
`none` (JS `undefined`), a thrown `TypeError` is modelled by `Except.error ()`,
and a board cell holds `none` for JS `null`.
-/

namespace ChessLike

inductive Player : Type
  | white
  | black
deriving DecidableEq, Repr

def Player.other : Player → Player
  | .white => .black
  | .black => .white

inductive Dir : Type
  | horizontal
  | vertical
deriving DecidableEq, Repr

/-- A movement rule from the piece catalog (`pieces.json`):
`{type:'straight', direction, range}` or `{type:'hop', horizontal, vertical}`. -/
inductive Movement : Type
  | straight (direction : Dir) (range : Nat)
  | hop (horizontal vertical : Nat)
deriving DecidableEq, Repr

/-- A piece instance as built by `initializeBoard` / mutated by `processMove`. -/
structure Piece : Type where
  id : String
  type : String
  player : Player
  health : Int
  attack : Int
  image : String
  position : Int × Int
deriving DecidableEq, Repr

/-- A catalog entry (one `pieces.json` piece type). -/
structure PieceDef : Type where
  health : Int
  attack : Int
  image : String
  movement : List Movement
  initialPositionsWhite : List (Nat × Nat)
  initialPositionsBlack : List (Nat × Nat)
deriving DecidableEq, Repr

/-- The `piecesData` object, keyed by piece type name (insertion ordered). -/
abbrev Catalog : Type := List (String × PieceDef)

/-- A board cell: `none` is JS `null`, `some p` an occupying piece. -/
abbrev Cell : Type := Option Piece

abbrev Board : Type := List (List Cell)

abbrev SquareControl : Type := List (List (Option Player))

/-- JS array read `l[i]` for an integer index: `undefined` (here `none`) when
out of range; a negative index is not an array index. -/
def jsGet {α : Type} (l : List α) (i : Int) : Option α :=
  if 0 ≤ i then l[i.toNat]? else none

/-- JS read `board[r][c]`: throws when `board[r]` is `undefined`; otherwise
yields the cell (`.ok (some cell)`) or `undefined` (`.ok none`). -/
def boardAt (b : Board) (r c : Int) : Except Unit (Option Cell) :=
  match jsGet b r with
  | none => .error ()
  | some row => .ok (jsGet row c)

/-- Total in-range read used for the 0..7 loops of the engine. -/
def cellAt (b : Board) (r c : Nat) : Cell :=
  (b.getD r []).getD c none

def controlAt (sc : SquareControl) (r c : Nat) : Option Player :=
  (sc.getD r []).getD c none

/-- JS write `board[r][c] = v` at in-range indices. -/
def boardSet (b : Board) (r c : Nat) (v : Cell) : Board :=
  b.set r ((b.getD r []).set c v)

/-- JS write `board[r][c] = v` with integer indices.  A negative index would
create a non-index property invisible to every 0..7 loop of the program, and
an index at or beyond the row length would extend the row with slots that no
0..7 loop reads; both are observationally a no-op for the engine, and both are
unreachable from the message handler (earlier reads throw or fail validation
first). -/
def boardSetI (b : Board) (r c : Int) (v : Cell) : Board :=
  if 0 ≤ r ∧ 0 ≤ c then boardSet b r.toNat c.toNat v else b

def boardWF (b : Board) : Prop :=
  b.length = 8 ∧ ∀ row ∈ b, row.length = 8

instance (b : Board) : Decidable (boardWF b) := by
  unfold boardWF
  infer_instance

/-- `Array(8).fill().map(() => Array(8).fill(null))`. -/
def emptyBoard : Board :=
  (List.range 8).map (fun _ => (List.range 8).map (fun _ => (none : Cell)))

/-- `initializeBoard` of `server.js`: place every catalog entry's white and
black initial positions, assigning ids derived from side, type and start. -/
def initializeBoard (catalog : Catalog) : Board :=
  catalog.foldl
    (fun b entry =>
      let pieceType := entry.1
      let pd := entry.2
      let b1 := pd.initialPositionsWhite.foldl
        (fun acc pos =>
          boardSet acc pos.1 pos.2 (some
            { id := "w_" ++ pieceType ++ "_" ++ toString pos.1 ++ "_" ++ toString pos.2
              type := pieceType
              player := .white
              health := pd.health
              attack := pd.attack
              image := pd.image
              position := ((pos.1 : Int), (pos.2 : Int)) })) b
      pd.initialPositionsBlack.foldl
        (fun acc pos =>
          boardSet acc pos.1 pos.2 (some
            { id := "b_" ++ pieceType ++ "_" ++ toString pos.1 ++ "_" ++ toString pos.2
              type := pieceType
              player := .black
              health := pd.health
              attack := pd.attack
              image := pd.image
              position := ((pos.1 : Int), (pos.2 : Int)) })) b1)
    emptyBoard

/-- The game-session state (`game` object): transport handles omitted, the two
player names kept for the `_wins` status strings. -/
structure Game : Type where
  turn : Player
  board : Board
  squareControl : SquareControl
  status : String
  whiteSteam : Int
  blackSteam : Int
  whiteName : Option String
  blackName : Option String
deriving DecidableEq

/-- `createGame` of `server.js` (state part): fresh board, all-null square
control, status `active`, zero steam, white to move.  Note that
`calculateInitialSquareControl` is never invoked by the source. -/
def createGame (catalog : Catalog) (whiteName blackName : Option String) : Game :=
  { turn := .white
    board := initializeBoard catalog
    squareControl := (List.range 8).map (fun _ => (List.range 8).map (fun _ => (none : Option Player)))
    status := "active"
    whiteSteam := 0
    blackSteam := 0
    whiteName := whiteName
    blackName := blackName }

/-- The dead function `calculateInitialSquareControl` of `server.js` (defined
there but never called): mark each occupied square with its occupant's side. -/
def calculateInitialSquareControl (g : Game) : Game :=
  { g with squareControl :=
      (List.range 8).map (fun r => (List.range 8).map (fun c =>
        match cellAt g.board r c with
        | some piece => some piece.player
        | none => controlAt g.squareControl r c)) }

/-- The strictly-between indices walked by the path-clearance loops:
`for (i = min+1; i < max; i++)`. -/
def betweenExclusive (a b : Int) : List Int :=
  (List.range (max a b - min a b - 1).toNat).map (fun i : Nat => min a b + 1 + (i : Int))

/-- The horizontal path loop: `game.board[fromRow][col] !== null` blocks the
path (JS `undefined` also differs from `null`); reading `board[row]` when
`row` is out of range throws. -/
def pathClearRow (b : Board) (row : Int) : List Int → Except Unit Bool
  | [] => .ok true
  | col :: rest =>
    match boardAt b row col with
    | .error e => .error e
    | .ok cell => if cell = some none then pathClearRow b row rest else .ok false

/-- The vertical path loop: `game.board[row][fromCol] !== null`. -/
def pathClearCol (b : Board) (col : Int) : List Int → Except Unit Bool
  | [] => .ok true
  | row :: rest =>
    match boardAt b row col with
    | .error e => .error e
    | .ok cell => if cell = some none then pathClearCol b col rest else .ok false

/-- One iteration of the movement-rule loop of `isValidMove`. -/
def ruleCheck (b : Board) (fromRow fromCol toRow toCol : Int) : Movement → Except Unit Bool
  | .straight .horizontal range =>
    if fromRow = toRow then
      let distance := (toCol - fromCol).natAbs
      if 0 < distance ∧ distance ≤ range then
        pathClearRow b fromRow (betweenExclusive fromCol toCol)
      else .ok false
    else .ok false
  | .straight .vertical range =>
    if fromCol = toCol then
      let distance := (toRow - fromRow).natAbs
      if 0 < distance ∧ distance ≤ range then
        pathClearCol b fromCol (betweenExclusive fromRow toRow)
      else .ok false
    else .ok false
  | .hop hOff vOff =>
    .ok (decide ((toCol - fromCol).natAbs = hOff ∧ (toRow - fromRow).natAbs = vOff))

/-- The `for (const movement of pieceData.movement)` loop: first satisfied
rule returns `true`; falling off the end returns `false`. -/
def checkRules (b : Board) (fromRow fromCol toRow toCol : Int) : List Movement → Except Unit Bool
  | [] => .ok false
  | m :: rest =>
    match ruleCheck b fromRow fromCol toRow toCol m with
    | .error e => .error e
    | .ok true => .ok true
    | .ok false => checkRules b fromRow fromCol toRow toCol rest

/-- `isValidMove` of `server.js`.  The target lookup happens before the rule
loop; an `undefined` target square throws at `targetSquare.player`, and a
missing catalog entry throws at `pieceData.movement` only after the
friendly-target rejection. -/
def isValidMove (catalog : Catalog) (b : Board) (fromPos toPos : Int × Int)
    (piece : Piece) : Except Unit Bool :=
  let pieceData := catalog.lookup piece.type
  match boardAt b toPos.1 toPos.2 with
  | .error e => .error e
  | .ok targetSquare =>
    match targetSquare with
    | none => .error ()
    | some none =>
      match pieceData with
      | none => .error ()
      | some pd => checkRules b fromPos.1 fromPos.2 toPos.1 toPos.2 pd.movement
    | some (some target) =>
      if target.player = piece.player then .ok false
      else
        match pieceData with
        | none => .error ()
        | some pd => checkRules b fromPos.1 fromPos.2 toPos.1 toPos.2 pd.movement

/-- The board mutation of `processMove`: combat when the target is an enemy
piece, otherwise relocation (the JS `else` branch also fires for a friendly
target, unreachable past validation).  A `null`/`undefined` moving piece
throws (at `piece.player` or `piece.position`). -/
def resolveBoard (b : Board) (fromPos toPos : Int × Int) : Except Unit Board :=
  match boardAt b fromPos.1 fromPos.2 with
  | .error e => .error e
  | .ok pieceCell =>
    match boardAt b toPos.1 toPos.2 with
    | .error e => .error e
    | .ok targetCell =>
      match targetCell with
      | some (some target) =>
        match pieceCell with
        | some (some piece) =>
          if target.player ≠ piece.player then
            let target2 := { target with health := target.health - piece.attack }
            if target2.health ≤ 0 then
              .ok (boardSetI (boardSetI b toPos.1 toPos.2
                      (some { piece with position := toPos }))
                    fromPos.1 fromPos.2 none)
            else
              .ok (boardSetI b toPos.1 toPos.2 (some target2))
          else
            .ok (boardSetI (boardSetI b toPos.1 toPos.2
                    (some { piece with position := toPos }))
                  fromPos.1 fromPos.2 none)
        | _ => .error ()
      | _ =>
        match pieceCell with
        | some (some piece) =>
          .ok (boardSetI (boardSetI b toPos.1 toPos.2
                  (some { piece with position := toPos }))
                fromPos.1 fromPos.2 none)
        | _ => .error ()

/-- All 64 (row, col) pairs walked by the nested 0..7 loops. -/
def allSquares : List (Nat × Nat) :=
  (List.range 8).flatMap (fun r => (List.range 8).map (fun c => (r, c)))

def cellIsPlayer (cell : Cell) (pl : Player) : Bool :=
  match cell with
  | some piece => decide (piece.player = pl)
  | none => false

/-- The piece count of one side, as walked by `checkWinCondition`. -/
def countPieces (b : Board) (pl : Player) : Nat :=
  allSquares.countP (fun s => cellIsPlayer (cellAt b s.1 s.2) pl)

/-- JS `x || dflt` for the player-name strings (both `undefined` and the empty
string fall back to the default). -/
def jsOr (s : Option String) (dflt : String) : String :=
  match s with
  | some v => if v = "" then dflt else v
  | none => dflt

/-- `checkWinCondition` of `server.js`: a side with zero pieces loses and the
other side's display name becomes the `_wins` status. -/
def checkWinCondition (g : Game) : Game :=
  let whitePiecesCount := countPieces g.board .white
  let blackPiecesCount := countPieces g.board .black
  let whitePlayerName := jsOr g.whiteName "White"
  let blackPlayerName := jsOr g.blackName "Black"
  if whitePiecesCount = 0 then { g with status := blackPlayerName ++ "_wins" }
  else if blackPiecesCount = 0 then { g with status := whitePlayerName ++ "_wins" }
  else g

/-- The 8 neighbour offsets of the influence loops (`dr`, `dc` from -1 to 1,
skipping (0,0)). -/
def neighborOffsets : List (Int × Int) :=
  [(-1, -1), (-1, 0), (-1, 1), (0, -1), (0, 1), (1, -1), (1, 0), (1, 1)]

/-- The influence accumulated at square (r, c) for one side: each piece of
that side increments every in-range neighbour, so the total received here is
the number of in-range neighbours of (r, c) occupied by that side (the offset
set is symmetric). -/
def influenceAt (b : Board) (r c : Nat) (pl : Player) : Nat :=
  neighborOffsets.countP (fun d =>
    let ar : Int := (r : Int) + d.1
    let ac : Int := (c : Int) + d.2
    decide (0 ≤ ar ∧ ar < 8 ∧ 0 ≤ ac ∧ ac < 8) &&
      cellIsPlayer (cellAt b ar.toNat ac.toNat) pl)

/-- The recomputed control of one square: direct control for an occupied
square; strict influence majority for an empty one; on a tie the value the
square held before this recomputation is kept. -/
def updatedControlAt (b : Board) (sc0 : SquareControl) (r c : Nat) : Option Player :=
  match cellAt b r c with
  | some piece => some piece.player
  | none =>
    if influenceAt b r c .black < influenceAt b r c .white then some .white
    else if influenceAt b r c .white < influenceAt b r c .black then some .black
    else controlAt sc0 r c

/-- The control map rebuilt by the two passes of
`updateSquareControlAfterMove` over the post-move board. -/
def newControlGrid (b : Board) (sc0 : SquareControl) : SquareControl :=
  (List.range 8).map (fun r => (List.range 8).map (fun c => updatedControlAt b sc0 r c))

/-- The steam loop: squares of the updated control map marked for one side. -/
def countControlled (sc : SquareControl) (pl : Player) : Nat :=
  allSquares.countP (fun s => decide (controlAt sc s.1 s.2 = some pl))

/-- `updateSquareControlAfterMove` of `server.js`: rebuild the control map,
then add the number of squares controlled by the player who just moved
(`game.turn`, the flip happens later) to that player's steam. -/
def updateSquareControlAfterMove (g : Game) : Game :=
  let sc := newControlGrid g.board g.squareControl
  let steamGained := countControlled sc g.turn
  match g.turn with
  | .white => { g with squareControl := sc, whiteSteam := g.whiteSteam + (steamGained : Int) }
  | .black => { g with squareControl := sc, blackSteam := g.blackSteam + (steamGained : Int) }

/-- The tail of `processMove` after the board mutation: win check, control
and steam recomputation, turn flip (state part; the broadcast is I/O). -/
def finishMove (g : Game) (b : Board) : Game :=
  let g2 := checkWinCondition { g with board := b }
  let g3 := updateSquareControlAfterMove g2
  { g3 with turn := g3.turn.other }

/-- `processMove` of `server.js` (state part). -/
def processMove (g : Game) (fromPos toPos : Int × Int) : Except Unit Game :=
  match resolveBoard g.board fromPos toPos with
  | .error e => .error e
  | .ok b2 => .ok (finishMove g b2)

/-- The `move` branch of the `ws.on('message')` handler: turn gate, piece
ownership gate, validation, then `processMove`.  A falsy piece lookup (empty
square or `undefined`) silently drops the request. -/
def handleMove (catalog : Catalog) (g : Game) (color : Player)
    (fromPos toPos : Int × Int) : Except Unit Game :=
  if g.turn = color then
    match boardAt g.board fromPos.1 fromPos.2 with
    | .error e => .error e
    | .ok none => .ok g
    | .ok (some none) => .ok g
    | .ok (some (some piece)) =>
      if piece.player = color then
        match isValidMove catalog g.board fromPos toPos piece with
        | .error e => .error e
        | .ok true => processMove g fromPos toPos
        | .ok false => .ok g
      else .ok g
  else .ok g

/-- The game states a session can reach: the state built by `createGame`,
closed under handled move requests. -/
inductive Reachable (catalog : Catalog) : Game → Prop
  | init (whiteName blackName : Option String) :
      Reachable catalog (createGame catalog whiteName blackName)
  | step (g : Game) (color : Player) (fromPos toPos : Int × Int) (g2 : Game) :
      Reachable catalog g → handleMove catalog g color fromPos toPos = .ok g2 →
      Reachable catalog g2

/-! Demo data used by the concrete witnesses. -/

def demoPawn : PieceDef :=
  { health := 1, attack := 1, image := "p.png"
    movement := [.straight .horizontal 1]
    initialPositionsWhite := [(0, 0)]
    initialPositionsBlack := [(0, 1)] }

def demoCatalog : Catalog := [("p", demoPawn)]

def demoWhitePiece : Piece :=
  { id := "w_p_0_0", type := "p", player := .white, health := 1, attack := 1,
    image := "p.png", position := (0, 0) }

def demoBlackPiece : Piece :=
  { id := "b_p_0_1", type := "p", player := .black, health := 1, attack := 1,
    image := "p.png", position := (0, 1) }

def demoG0 : Game := createGame demoCatalog (some "Ann") (some "Bob")

/-- The session state after white captures black's last piece. -/
def demoG1 : Game :=
  ((handleMove demoCatalog demoG0 .white (0, 0) (0, 1)).toOption).getD demoG0

/-- The display name used in a `_wins` status for one side. -/
def sideName (g : Game) : Player → String
  | .white => jsOr g.whiteName "White"
  | .black => jsOr g.blackName "Black"

/-- Transcription of the spec's Straight-rule clause: origin and destination
share the rule's axis, the offset magnitude lies in `[1, range]`, and every
square strictly between origin and destination is empty (the destination
itself exempt from the emptiness check). -/
def straightLegalSpec (b : Board) (dir : Dir) (range : Nat) (fr fc tr tc : Int) : Prop :=
  match dir with
  | .horizontal =>
    fr = tr ∧ 1 ≤ (tc - fc).natAbs ∧ (tc - fc).natAbs ≤ range ∧
      ∀ c : Int, min fc tc < c → c < max fc tc → cellAt b fr.toNat c.toNat = none
  | .vertical =>
    fc = tc ∧ 1 ≤ (tr - fr).natAbs ∧ (tr - fr).natAbs ≤ range ∧
      ∀ r : Int, min fr tr < r → r < max fr tr → cellAt b r.toNat fc.toNat = none

def emptyControl : SquareControl :=
  (List.range 8).map (fun _ => (List.range 8).map (fun _ => (none : Option Player)))

/-! Further concrete data for the witnesses. -/

def hopKnight : PieceDef :=
  { health := 3, attack := 1, image := "n.png"
    movement := [.hop 1 2]
    initialPositionsWhite := [(0, 0)]
    initialPositionsBlack := [(4, 4)] }

def hopCatalog : Catalog := [("n", hopKnight)]

def hopBoardA : Board := initializeBoard hopCatalog

def hopBoardB : Board := boardSet hopBoardA 1 0 (some demoBlackPiece)

def hopPieceW : Piece :=
  { id := "w_n_0_0", type := "n", player := .white, health := 3, attack := 1,
    image := "n.png", position := (0, 0) }

def c3Attacker : Piece :=
  { id := "w_r_0_0", type := "r", player := .white, health := 10, attack := 5,
    image := "r.png", position := (0, 0) }

def c3Defender : Piece :=
  { id := "b_r_0_1", type := "r", player := .black, health := 10, attack := 2,
    image := "r.png", position := (0, 1) }

def c3Board : Board :=
  boardSet (boardSet emptyBoard 0 0 (some c3Attacker)) 0 1 (some c3Defender)

def c3Game : Game :=
  { turn := .white, board := c3Board, squareControl := emptyControl,
    status := "active", whiteSteam := 0, blackSteam := 0,
    whiteName := none, blackName := none }

def c3After : Game := (processMove c3Game (0, 0) (0, 1)).toOption.getD c3Game

/-- A control map in which the empty square (3,3) is already white. -/
def tieControl : SquareControl :=
  (List.range 8).map (fun r => (List.range 8).map (fun c =>
    if r = 3 ∧ c = 3 then some Player.white else none))

def c5Game : Game :=
  { turn := .white, board := emptyBoard, squareControl := tieControl,
    status := "active", whiteSteam := 0, blackSteam := 0,
    whiteName := none, blackName := none }

/-! Basic facts about the JS indexing model. -/

theorem jsGet_eq_some_iff {α : Type} {l : List α} {i : Int} {a : α} :
    jsGet l i = some a ↔ 0 ≤ i ∧ l[i.toNat]? = some a := by
  unfold jsGet
  by_cases h : 0 ≤ i <;> simp [h]

theorem cellAt_def (b : Board) (r c : Nat) :
    cellAt b r c = ((b[r]?.getD [])[c]?).getD none := by
  simp [cellAt]

theorem controlAt_def (sc : SquareControl) (r c : Nat) :
    controlAt sc r c = ((sc[r]?.getD [])[c]?).getD none := by
  simp [controlAt]

theorem boardAt_eq (b : Board) (r c : Int) (hwf : boardWF b)
    (hr0 : 0 ≤ r) (hr : r < 8) (hc0 : 0 ≤ c) (hc : c < 8) :
    boardAt b r c = .ok (some (cellAt b r.toNat c.toNat)) := by
  obtain ⟨hlen, hrows⟩ := hwf
  have hrn : r.toNat < b.length := by omega
  have hrowlen : (b[r.toNat]).length = 8 := hrows _ (List.getElem_mem hrn)
  have hcn : c.toNat < (b[r.toNat]).length := by omega
  have h1 : jsGet b r = some (b[r.toNat]) := by
    rw [jsGet_eq_some_iff]
    exact ⟨hr0, List.getElem?_eq_getElem hrn⟩
  have h2 : jsGet (b[r.toNat]) c = some ((b[r.toNat])[c.toNat]) := by
    rw [jsGet_eq_some_iff]
    exact ⟨hc0, List.getElem?_eq_getElem hcn⟩
  unfold boardAt
  rw [h1]
  simp only [h2, cellAt_def, List.getElem?_eq_getElem hrn, Option.getD_some,
    List.getElem?_eq_getElem hcn]

theorem boardAt_ok_some {b : Board} {r c : Int} {v : Cell}
    (h : boardAt b r c = .ok (some v)) :
    0 ≤ r ∧ 0 ≤ c ∧ r.toNat < b.length ∧ cellAt b r.toNat c.toNat = v := by
  unfold boardAt at h
  cases hrow : jsGet b r with
  | none => rw [hrow] at h; exact absurd h (by simp)
  | some row =>
    rw [hrow] at h
    have hcell : jsGet row c = some v := by simpa using h
    obtain ⟨hr0, hrow2⟩ := jsGet_eq_some_iff.mp hrow
    obtain ⟨hc0, hcell2⟩ := jsGet_eq_some_iff.mp hcell
    obtain ⟨hrn, -⟩ := List.getElem?_eq_some_iff.mp hrow2
    refine ⟨hr0, hc0, hrn, ?_⟩
    rw [cellAt_def, hrow2]
    simp [hcell2]

theorem boardAt_ok_some_wf {b : Board} {r c : Int} {v : Cell} (hwf : boardWF b)
    (h : boardAt b r c = .ok (some v)) :
    (0 ≤ r ∧ r < 8) ∧ (0 ≤ c ∧ c < 8) ∧ cellAt b r.toNat c.toNat = v := by
  obtain ⟨hr0, hc0, hrn, hcell⟩ := boardAt_ok_some h
  obtain ⟨hlen, hrows⟩ := hwf
  unfold boardAt at h
  cases hrow : jsGet b r with
  | none => rw [hrow] at h; exact absurd h (by simp)
  | some row =>
    rw [hrow] at h
    have hcell2 : jsGet row c = some v := by simpa using h
    obtain ⟨-, hrow2⟩ := jsGet_eq_some_iff.mp hrow
    obtain ⟨-, hcell3⟩ := jsGet_eq_some_iff.mp hcell2
    have hmem : row ∈ b := by
      obtain ⟨hlt, hget⟩ := List.getElem?_eq_some_iff.mp hrow2
      exact hget ▸ List.getElem_mem hlt
    have hrowlen : row.length = 8 := hrows row hmem
    obtain ⟨hcn, -⟩ := List.getElem?_eq_some_iff.mp hcell3
    exact ⟨⟨hr0, by omega⟩, ⟨hc0, by omega⟩, hcell⟩

/-! Reading and writing cells. -/

theorem cellAt_boardSet_self {b : Board} {r c : Nat} (v : Cell)
    (hr : r < b.length) (hc : c < (b.getD r []).length) :
    cellAt (boardSet b r c v) r c = v := by
  rw [cellAt_def]
  unfold boardSet
  rw [List.getElem?_set_self hr]
  simp only [Option.getD_some]
  rw [List.getElem?_set_self hc]
  rfl

theorem cellAt_boardSet_other {b : Board} {r c : Nat} (v : Cell) {r2 c2 : Nat}
    (h : r2 ≠ r ∨ c2 ≠ c) :
    cellAt (boardSet b r c v) r2 c2 = cellAt b r2 c2 := by
  rw [cellAt_def, cellAt_def]
  unfold boardSet
  rcases h with h | h
  · rw [List.getElem?_set_ne (by omega)]
  · by_cases hr : r2 = r
    · subst hr
      rw [List.getElem?_set_self']
      cases hb : b[r2]? with
      | none => simp [hb]
      | some row =>
        have hrow : b.getD r2 [] = row := by
          rw [List.getD_eq_getElem?_getD, hb]
          rfl
        simp only [hb, Option.map_some, Option.getD_some, hrow, Function.const_apply]
        rw [List.getElem?_set_ne (fun hcc => h hcc.symm)]
    · rw [List.getElem?_set_ne (by omega)]

theorem boardWF_boardSet {b : Board} (r c : Nat) (v : Cell) (hwf : boardWF b)
    (hr : r < 8) : boardWF (boardSet b r c v) := by
  obtain ⟨hlen, hrows⟩ := hwf
  refine ⟨by simp [boardSet, hlen], ?_⟩
  intro row hrow
  rcases List.mem_or_eq_of_mem_set hrow with h | h
  · exact hrows row h
  · subst h
    rw [List.length_set]
    have hrb : r < b.length := by omega
    have hg : b.getD r [] = b[r] := by
      rw [List.getD_eq_getElem?_getD, List.getElem?_eq_getElem hrb]
      rfl
    rw [hg]
    exact hrows _ (List.getElem_mem hrb)

/-! Counting pieces. -/

theorem countP_update {α : Type} (p q : α → Bool) (x : α) :
    ∀ l : List α, x ∈ l → l.Nodup → (∀ y ∈ l, y ≠ x → p y = q y) →
      l.countP p + (if q x then 1 else 0) = l.countP q + (if p x then 1 else 0) := by
  intro l
  induction l with
  | nil => intro hx; exact absurd hx (List.not_mem_nil x)
  | cons a l ih =>
    intro hx hnd hagree
    rw [List.countP_cons, List.countP_cons]
    rcases List.mem_cons.mp hx with rfl | hxl
    · have hxnl : x ∉ l := (List.nodup_cons.mp hnd).1
      have heq : l.countP p = l.countP q :=
        List.countP_congr (fun y hy => by
          rw [hagree y (List.mem_cons_of_mem _ hy) (fun hyx => hxnl (hyx ▸ hy))])
      omega
    · have hax : a ≠ x := fun hax => (List.nodup_cons.mp hnd).1 (hax ▸ hxl)
      have hpa : p a = q a := hagree a (List.mem_cons_self a l) hax
      have := ih hxl (List.nodup_cons.mp hnd).2
        (fun y hy hyx => hagree y (List.mem_cons_of_mem _ hy) hyx)
      rw [hpa]
      omega

theorem mem_allSquares {s : Nat × Nat} : s ∈ allSquares ↔ s.1 < 8 ∧ s.2 < 8 := by
  obtain ⟨r, c⟩ := s
  simp [allSquares]

theorem allSquares_nodup : allSquares.Nodup := by decide

theorem countPieces_boardSet {b : Board} (pl : Player) {r c : Nat} (v : Cell)
    (hwf : boardWF b) (hr : r < 8) (hc : c < 8) :
    countPieces (boardSet b r c v) pl
      + (if cellIsPlayer (cellAt b r c) pl then 1 else 0)
      = countPieces b pl + (if cellIsPlayer v pl then 1 else 0) := by
  obtain ⟨hlen, hrows⟩ := hwf
  have hrb : r < b.length := by omega
  have hcb : c < (b.getD r []).length := by
    have hg : b.getD r [] = b[r] := by
      rw [List.getD_eq_getElem?_getD, List.getElem?_eq_getElem hrb]
      rfl
    rw [hg]
    have := hrows _ (List.getElem_mem hrb)
    omega
  have hmain := countP_update
    (fun s => cellIsPlayer (cellAt (boardSet b r c v) s.1 s.2) pl)
    (fun s => cellIsPlayer (cellAt b s.1 s.2) pl)
    (r, c) allSquares (mem_allSquares.mpr ⟨hr, hc⟩) allSquares_nodup
    (fun y _ hyx => by
      have : y.1 ≠ r ∨ y.2 ≠ c := by
        by_contra hcon
        push_neg at hcon
        exact hyx (Prod.ext hcon.1 hcon.2)
      simp only [cellAt_boardSet_other v this])
  unfold countPieces
  simp only at hmain
  simp only [cellAt_boardSet_self v hrb hcb] at hmain
  omega

theorem countPieces_pos {b : Board} {pl : Player} {r c : Nat} (hr : r < 8) (hc : c < 8)
    (h : cellIsPlayer (cellAt b r c) pl) : 0 < countPieces b pl := by
  unfold countPieces
  rw [List.countP_pos_iff]
  exact ⟨(r, c), mem_allSquares.mpr ⟨hr, hc⟩, h⟩

theorem countPieces_eq_zero {b : Board} {pl : Player} (h : countPieces b pl = 0)
    {r c : Nat} (hr : r < 8) (hc : c < 8) : ¬ cellIsPlayer (cellAt b r c) pl := by
  unfold countPieces at h
  rw [List.countP_eq_zero] at h
  exact fun hcp => h (r, c) (mem_allSquares.mpr ⟨hr, hc⟩) hcp

/-! Component facts of the per-move pipeline. -/

theorem checkWin_same (g : Game) :
    (checkWinCondition g).board = g.board ∧ (checkWinCondition g).turn = g.turn ∧
    (checkWinCondition g).squareControl = g.squareControl ∧
    (checkWinCondition g).whiteSteam = g.whiteSteam ∧
    (checkWinCondition g).blackSteam = g.blackSteam ∧
    (checkWinCondition g).whiteName = g.whiteName ∧
    (checkWinCondition g).blackName = g.blackName := by
  simp only [checkWinCondition]
  split
  · exact ⟨rfl, rfl, rfl, rfl, rfl, rfl, rfl⟩
  · split
    · exact ⟨rfl, rfl, rfl, rfl, rfl, rfl, rfl⟩
    · exact ⟨rfl, rfl, rfl, rfl, rfl, rfl, rfl⟩

theorem checkWin_status (g : Game) :
    ((checkWinCondition g).status = g.status
      ∧ countPieces g.board .white ≠ 0 ∧ countPieces g.board .black ≠ 0) ∨
    (countPieces g.board .white = 0
      ∧ (checkWinCondition g).status = jsOr g.blackName "Black" ++ "_wins") ∨
    (countPieces g.board .white ≠ 0 ∧ countPieces g.board .black = 0
      ∧ (checkWinCondition g).status = jsOr g.whiteName "White" ++ "_wins") := by
  simp only [checkWinCondition]
  split
  · next h => exact Or.inr (Or.inl ⟨h, rfl⟩)
  · next h =>
    split
    · next h2 => exact Or.inr (Or.inr ⟨h, h2, rfl⟩)
    · next h2 => exact Or.inl ⟨rfl, h, h2⟩

theorem usc_same (g : Game) :
    (updateSquareControlAfterMove g).board = g.board ∧
    (updateSquareControlAfterMove g).turn = g.turn ∧
    (updateSquareControlAfterMove g).status = g.status ∧
    (updateSquareControlAfterMove g).whiteName = g.whiteName ∧
    (updateSquareControlAfterMove g).blackName = g.blackName ∧
    (updateSquareControlAfterMove g).squareControl = newControlGrid g.board g.squareControl := by
  cases hturn : g.turn <;> simp [updateSquareControlAfterMove, hturn]

theorem usc_steam (g : Game) :
    (g.turn = .white →
      (updateSquareControlAfterMove g).whiteSteam
        = g.whiteSteam + (countControlled (newControlGrid g.board g.squareControl) .white : Int) ∧
      (updateSquareControlAfterMove g).blackSteam = g.blackSteam) ∧
    (g.turn = .black →
      (updateSquareControlAfterMove g).blackSteam
        = g.blackSteam + (countControlled (newControlGrid g.board g.squareControl) .black : Int) ∧
      (updateSquareControlAfterMove g).whiteSteam = g.whiteSteam) := by
  cases hturn : g.turn
  · refine ⟨fun _ => ?_, fun hbad => by simp [hturn] at hbad⟩
    simp [updateSquareControlAfterMove, hturn]
  · refine ⟨fun hbad => by simp [hturn] at hbad, fun _ => ?_⟩
    simp [updateSquareControlAfterMove, hturn]

theorem controlAt_newControlGrid (b : Board) (sc0 : SquareControl) {r c : Nat}
    (hr : r < 8) (hc : c < 8) :
    controlAt (newControlGrid b sc0) r c = updatedControlAt b sc0 r c := by
  simp [controlAt_def, newControlGrid, List.getElem?_map, List.getElem?_range hr,
    List.getElem?_range hc]

theorem finishMove_parts (g : Game) (b2 : Board) :
    (finishMove g b2).board = b2 ∧
    (finishMove g b2).turn = g.turn.other ∧
    (finishMove g b2).status = (checkWinCondition { g with board := b2 }).status ∧
    (finishMove g b2).squareControl = newControlGrid b2 g.squareControl ∧
    (finishMove g b2).whiteName = g.whiteName ∧
    (finishMove g b2).blackName = g.blackName := by
  obtain ⟨hb, ht, hsc, hws, hbs, hwn, hbn⟩ := checkWin_same { g with board := b2 }
  obtain ⟨ub, ut, ust, uwn, ubn, uscg⟩ := usc_same (checkWinCondition { g with board := b2 })
  refine ⟨?_, ?_, ?_, ?_, ?_, ?_⟩
  · show (updateSquareControlAfterMove (checkWinCondition { g with board := b2 })).board = b2
    rw [ub, hb]
  · show (updateSquareControlAfterMove (checkWinCondition { g with board := b2 })).turn.other
      = g.turn.other
    rw [ut, ht]
  · show (updateSquareControlAfterMove (checkWinCondition { g with board := b2 })).status
      = (checkWinCondition { g with board := b2 }).status
    rw [ust]
  · show (updateSquareControlAfterMove (checkWinCondition { g with board := b2 })).squareControl
      = newControlGrid b2 g.squareControl
    rw [uscg, hb, hsc]
  · show (updateSquareControlAfterMove (checkWinCondition { g with board := b2 })).whiteName
      = g.whiteName
    rw [uwn, hwn]
  · show (updateSquareControlAfterMove (checkWinCondition { g with board := b2 })).blackName
      = g.blackName
    rw [ubn, hbn]

theorem finishMove_steam (g : Game) (b2 : Board) :
    (g.turn = .white →
      (finishMove g b2).whiteSteam
        = g.whiteSteam + (countControlled (newControlGrid b2 g.squareControl) .white : Int) ∧
      (finishMove g b2).blackSteam = g.blackSteam) ∧
    (g.turn = .black →
      (finishMove g b2).blackSteam
        = g.blackSteam + (countControlled (newControlGrid b2 g.squareControl) .black : Int) ∧
      (finishMove g b2).whiteSteam = g.whiteSteam) := by
  obtain ⟨hb, ht, hsc, hws, hbs, hwn, hbn⟩ := checkWin_same { g with board := b2 }
  obtain ⟨uw, ubk⟩ := usc_steam (checkWinCondition { g with board := b2 })
  constructor
  · intro hturn
    have ht2 : (checkWinCondition { g with board := b2 }).turn = Player.white := by
      rw [ht]; exact hturn
    obtain ⟨e1, e2⟩ := uw ht2
    constructor
    · show (updateSquareControlAfterMove (checkWinCondition { g with board := b2 })).whiteSteam = _
      rw [e1, hws, hb, hsc]
    · show (updateSquareControlAfterMove (checkWinCondition { g with board := b2 })).blackSteam
        = g.blackSteam
      rw [e2, hbs]
  · intro hturn
    have ht2 : (checkWinCondition { g with board := b2 }).turn = Player.black := by
      rw [ht]; exact hturn
    obtain ⟨e1, e2⟩ := ubk ht2
    constructor
    · show (updateSquareControlAfterMove (checkWinCondition { g with board := b2 })).blackSteam = _
      rw [e1, hbs, hb, hsc]
    · show (updateSquareControlAfterMove (checkWinCondition { g with board := b2 })).whiteSteam
        = g.whiteSteam
      rw [e2, hws]

theorem finishMove_steam_le (g : Game) (b2 : Board) :
    g.whiteSteam ≤ (finishMove g b2).whiteSteam ∧
    g.blackSteam ≤ (finishMove g b2).blackSteam := by
  obtain ⟨uw, ubk⟩ := finishMove_steam g b2
  cases hturn : g.turn
  · obtain ⟨e1, e2⟩ := uw hturn
    constructor
    · rw [e1]
      have hn : (0 : Int) ≤ (countControlled (newControlGrid b2 g.squareControl) .white : Int) := by
        exact_mod_cast Nat.zero_le _
      omega
    · rw [e2]
  · obtain ⟨e1, e2⟩ := ubk hturn
    constructor
    · rw [e2]
    · rw [e1]
      have hn : (0 : Int) ≤ (countControlled (newControlGrid b2 g.squareControl) .black : Int) := by
        exact_mod_cast Nat.zero_le _
      omega

/-! Status strings. -/

theorem wins_ne_active (s : String) : s ++ "_wins" ≠ "active" := by
  intro h
  have hd : s.data ++ "_wins".data = "active".data := by
    rw [← String.data_append, h]
  have hw : "_wins".data = ['_', 'w', 'i', 'n', 's'] := rfl
  have ha : "active".data = ['a', 'c', 't', 'i', 'v', 'e'] := rfl
  rw [hw, ha] at hd
  have hlen : s.data.length + 5 = 6 := by
    have hc := congrArg List.length hd
    simpa using hc
  obtain ⟨a, hone⟩ := List.length_eq_one.mp (by omega : s.data.length = 1)
  rw [hone] at hd
  simp at hd

/-! Inversion of a successful validation. -/

theorem isValidMove_ok_true {catalog : Catalog} {b : Board} {f t : Int × Int} {piece : Piece}
    (h : isValidMove catalog b f t piece = .ok true) :
    boardAt b t.1 t.2 = .ok (some none) ∨
    ∃ q, boardAt b t.1 t.2 = .ok (some (some q)) ∧ q.player ≠ piece.player := by
  unfold isValidMove at h
  cases hb : boardAt b t.1 t.2 with
  | error e =>
    rw [hb] at h
    simp at h
  | ok targetSquare =>
    rw [hb] at h
    rcases targetSquare with _ | cellv
    · simp at h
    · rcases cellv with _ | q
      · exact Or.inl rfl
      · by_cases hpl : q.player = piece.player
        · simp [hpl] at h
        · exact Or.inr ⟨q, rfl, hpl⟩

/-! The three shapes of the board mutation. -/

theorem boardSetI_eq {b : Board} {r c : Int} (hr : 0 ≤ r) (hc : 0 ≤ c) (v : Cell) :
    boardSetI b r c v = boardSet b r.toNat c.toNat v := by
  unfold boardSetI
  rw [if_pos ⟨hr, hc⟩]

theorem resolveBoard_empty {b : Board} {f t : Int × Int} {p : Piece}
    (hp : boardAt b f.1 f.2 = .ok (some (some p)))
    (ht : boardAt b t.1 t.2 = .ok (some none)) :
    resolveBoard b f t = .ok (boardSet (boardSet b t.1.toNat t.2.toNat
        (some { p with position := t })) f.1.toNat f.2.toNat none) := by
  obtain ⟨hf10, hf20, -, -⟩ := boardAt_ok_some hp
  obtain ⟨ht10, ht20, -, -⟩ := boardAt_ok_some ht
  unfold resolveBoard
  rw [hp, ht]
  simp only []
  rw [boardSetI_eq ht10 ht20, boardSetI_eq hf10 hf20]

theorem resolveBoard_kill {b : Board} {f t : Int × Int} {p q : Piece}
    (hp : boardAt b f.1 f.2 = .ok (some (some p)))
    (hq : boardAt b t.1 t.2 = .ok (some (some q)))
    (hpl : q.player ≠ p.player)
    (hkill : q.health - p.attack ≤ 0) :
    resolveBoard b f t = .ok (boardSet (boardSet b t.1.toNat t.2.toNat
        (some { p with position := t })) f.1.toNat f.2.toNat none) := by
  obtain ⟨hf10, hf20, -, -⟩ := boardAt_ok_some hp
  obtain ⟨ht10, ht20, -, -⟩ := boardAt_ok_some hq
  unfold resolveBoard
  rw [hp, hq]
  simp only []
  rw [if_pos hpl, if_pos hkill]
  rw [boardSetI_eq ht10 ht20, boardSetI_eq hf10 hf20]

theorem resolveBoard_survive {b : Board} {f t : Int × Int} {p q : Piece}
    (hp : boardAt b f.1 f.2 = .ok (some (some p)))
    (hq : boardAt b t.1 t.2 = .ok (some (some q)))
    (hpl : q.player ≠ p.player)
    (hsurv : 0 < q.health - p.attack) :
    resolveBoard b f t = .ok (boardSet b t.1.toNat t.2.toNat
        (some { q with health := q.health - p.attack })) := by
  obtain ⟨ht10, ht20, -, -⟩ := boardAt_ok_some hq
  unfold resolveBoard
  rw [hp, hq]
  simp only []
  rw [if_pos hpl, if_neg (by omega : ¬ q.health - p.attack ≤ 0)]
  rw [boardSetI_eq ht10 ht20]

theorem Player.other_ne (pl : Player) : pl.other ≠ pl := by
  cases pl <;> simp [Player.other]

theorem Player.eq_other_of_ne {a b : Player} (h : a ≠ b) : a = b.other := by
  cases a <;> cases b <;> simp_all [Player.other]

theorem weight_self (p : Piece) (pl : Player) (h : p.player = pl) :
    (if cellIsPlayer (some p) pl then 1 else 0) = 1 := by
  simp [cellIsPlayer, h]

theorem weight_ne (p : Piece) (pl : Player) (h : p.player ≠ pl) :
    (if cellIsPlayer (some p) pl then 1 else 0) = 0 := by
  simp [cellIsPlayer, h]

theorem weight_none (pl : Player) :
    (if cellIsPlayer (none : Cell) pl then 1 else 0) = 0 := by
  simp [cellIsPlayer]

/-- Net effect on one side's piece count of placing `v` at the target square
and clearing the origin square. -/
theorem countPieces_movePiece {b : Board} {p : Piece} {tr tc fr fc : Nat} (pl : Player)
    (hwf : boardWF b) (htr : tr < 8) (htc : tc < 8) (hfr : fr < 8) (hfc : fc < 8)
    (hne : fr ≠ tr ∨ fc ≠ tc)
    (hcf : cellAt b fr fc = some p) (v : Cell) :
    countPieces (boardSet (boardSet b tr tc v) fr fc none) pl
      + (if cellIsPlayer (some p) pl then 1 else 0)
      + (if cellIsPlayer (cellAt b tr tc) pl then 1 else 0)
      = countPieces b pl + (if cellIsPlayer v pl then 1 else 0) := by
  have h1 := countPieces_boardSet pl v hwf htr htc
  have hwf1 := boardWF_boardSet tr tc v hwf htr
  have h2 := countPieces_boardSet pl (none : Cell) hwf1 hfr hfc
  rw [cellAt_boardSet_other v hne, hcf, weight_none] at h2
  omega

/-- The board mutation of a validated move succeeds, keeps the board well
formed, preserves the moving side's piece count, and removes at most one
opposing piece. -/
theorem resolveBoard_counts {b : Board} {f t : Int × Int} {p : Piece}
    (hwf : boardWF b)
    (hp : boardAt b f.1 f.2 = .ok (some (some p)))
    (htarget : boardAt b t.1 t.2 = .ok (some none) ∨
      ∃ q, boardAt b t.1 t.2 = .ok (some (some q)) ∧ q.player ≠ p.player) :
    ∃ b2, resolveBoard b f t = .ok b2 ∧ boardWF b2 ∧
      countPieces b2 p.player = countPieces b p.player ∧
      (countPieces b2 p.player.other = countPieces b p.player.other ∨
       countPieces b2 p.player.other + 1 = countPieces b p.player.other) := by
  obtain ⟨⟨hf10, hf1⟩, ⟨hf20, hf2⟩, hcf⟩ := boardAt_ok_some_wf hwf hp
  have hfr : f.1.toNat < 8 := by omega
  have hfc : f.2.toNat < 8 := by omega
  rcases htarget with ht | ⟨q, hq, hpl⟩
  · -- destination empty: plain relocation
    obtain ⟨⟨ht10, ht1⟩, ⟨ht20, ht2⟩, hct⟩ := boardAt_ok_some_wf hwf ht
    have htr : t.1.toNat < 8 := by omega
    have htc : t.2.toNat < 8 := by omega
    have hne : f.1.toNat ≠ t.1.toNat ∨ f.2.toNat ≠ t.2.toNat := by
      by_contra hcon
      push_neg at hcon
      rw [hcon.1, hcon.2, hct] at hcf
      exact absurd hcf (by simp)
    refine ⟨_, resolveBoard_empty hp ht, ?_, ?_, ?_⟩
    · exact boardWF_boardSet _ _ _ (boardWF_boardSet _ _ _ hwf htr) hfr
    · have hm := countPieces_movePiece p.player hwf htr htc hfr hfc hne hcf
        (some { p with position := t })
      rw [hct, weight_none, weight_self p p.player rfl,
        weight_self { p with position := t } p.player rfl] at hm
      omega
    · left
      have hm := countPieces_movePiece p.player.other hwf htr htc hfr hfc hne hcf
        (some { p with position := t })
      rw [hct, weight_none, weight_ne p p.player.other (Ne.symm (Player.other_ne p.player)),
        weight_ne { p with position := t } p.player.other
          (Ne.symm (Player.other_ne p.player))] at hm
      omega
  · -- destination enemy: combat
    obtain ⟨⟨ht10, ht1⟩, ⟨ht20, ht2⟩, hct⟩ := boardAt_ok_some_wf hwf hq
    have htr : t.1.toNat < 8 := by omega
    have htc : t.2.toNat < 8 := by omega
    have hne : f.1.toNat ≠ t.1.toNat ∨ f.2.toNat ≠ t.2.toNat := by
      by_contra hcon
      push_neg at hcon
      rw [hcon.1, hcon.2, hct] at hcf
      have hqp : q = p := by
        have hpq : p = q := by simpa using hcf.symm
        exact hpq.symm
      exact hpl (hqp ▸ rfl)
    have hqpl : q.player = p.player.other := Player.eq_other_of_ne hpl
    by_cases hkill : q.health - p.attack ≤ 0
    · refine ⟨_, resolveBoard_kill hp hq hpl hkill, ?_, ?_, ?_⟩
      · exact boardWF_boardSet _ _ _ (boardWF_boardSet _ _ _ hwf htr) hfr
      · have hm := countPieces_movePiece p.player hwf htr htc hfr hfc hne hcf
          (some { p with position := t })
        rw [hct, weight_self p p.player rfl, weight_ne q p.player hpl,
          weight_self { p with position := t } p.player rfl] at hm
        omega
      · right
        have hm := countPieces_movePiece p.player.other hwf htr htc hfr hfc hne hcf
          (some { p with position := t })
        rw [hct, weight_ne p p.player.other (Ne.symm (Player.other_ne p.player)),
          weight_self q p.player.other hqpl,
          weight_ne { p with position := t } p.player.other
            (Ne.symm (Player.other_ne p.player))] at hm
        omega
    · refine ⟨_, resolveBoard_survive hp hq hpl (by omega), ?_, ?_, ?_⟩
      · exact boardWF_boardSet _ _ _ hwf htr
      · have hm := countPieces_boardSet p.player
          (some { q with health := q.health - p.attack }) hwf htr htc
        rw [hct, weight_ne q p.player hpl,
          weight_ne { q with health := q.health - p.attack } p.player hpl] at hm
        omega
      · left
        have hm := countPieces_boardSet p.player.other
          (some { q with health := q.health - p.attack }) hwf htr htc
        rw [hct, weight_self q p.player.other hqpl,
          weight_self { q with health := q.health - p.attack } p.player.other hqpl] at hm
        omega

/-! Unfolding the move pipeline and the handler. -/

theorem processMove_ok_inv {g : Game} {f t : Int × Int} {g2 : Game}
    (h : processMove g f t = .ok g2) :
    ∃ b2, resolveBoard g.board f t = .ok b2 ∧ g2 = finishMove g b2 := by
  unfold processMove at h
  cases hr : resolveBoard g.board f t with
  | error e => rw [hr] at h; simp at h
  | ok b2 =>
    rw [hr] at h
    exact ⟨b2, rfl, ((Except.ok.inj h).symm : g2 = finishMove g b2)⟩

theorem handleMove_ok_inv {catalog : Catalog} {g : Game} {color : Player}
    {f t : Int × Int} {g2 : Game}
    (h : handleMove catalog g color f t = .ok g2) :
    g2 = g ∨
    (g.turn = color ∧ ∃ p, boardAt g.board f.1 f.2 = .ok (some (some p)) ∧
      p.player = color ∧ isValidMove catalog g.board f t p = .ok true ∧
      processMove g f t = .ok g2) := by
  unfold handleMove at h
  split at h
  · next hturn =>
    split at h
    · simp at h
    · exact Or.inl (Except.ok.inj h).symm
    · exact Or.inl (Except.ok.inj h).symm
    · next piece heq =>
      split at h
      · next hpl =>
        split at h
        · simp at h
        · next hv => exact Or.inr ⟨hturn, piece, heq, hpl, hv, h⟩
        · exact Or.inl (Except.ok.inj h).symm
      · exact Or.inl (Except.ok.inj h).symm
  · exact Or.inl (Except.ok.inj h).symm

/-! Well-formedness of every reachable board. -/

theorem foldl_preserves {α β : Type} (P : β → Prop) (f : β → α → β)
    (hf : ∀ b a, P b → P (f b a)) : ∀ (l : List α) (b : β), P b → P (l.foldl f b) := by
  intro l
  induction l with
  | nil => intro b hb; exact hb
  | cons a l ih => intro b hb; exact ih _ (hf b a hb)

theorem boardWF_boardSet_any {b : Board} (r c : Nat) (v : Cell) (hwf : boardWF b) :
    boardWF (boardSet b r c v) := by
  by_cases hr : r < 8
  · exact boardWF_boardSet r c v hwf hr
  · have hlen : b.length ≤ r := by
      obtain ⟨hl, -⟩ := hwf
      omega
    unfold boardSet
    rw [List.set_eq_of_length_le hlen]
    exact hwf

theorem boardWF_initializeBoard (catalog : Catalog) : boardWF (initializeBoard catalog) := by
  unfold initializeBoard
  refine foldl_preserves boardWF _ ?_ catalog emptyBoard (by decide)
  intro b entry hb
  refine foldl_preserves boardWF _ ?_ _ _ ?_
  · intro b2 pos hb2
    exact boardWF_boardSet_any _ _ _ hb2
  · refine foldl_preserves boardWF _ ?_ _ _ hb
    intro b2 pos hb2
    exact boardWF_boardSet_any _ _ _ hb2

/-- Session invariant: every reachable board is 8×8, and a terminal status
means the side to move has no pieces left. -/
theorem reachable_inv (catalog : Catalog) (g : Game) (h : Reachable catalog g) :
    boardWF g.board ∧ (g.status ≠ "active" → countPieces g.board g.turn = 0) := by
  induction h with
  | init wn bn =>
    exact ⟨boardWF_initializeBoard catalog, fun hst => absurd rfl hst⟩
  | step g color f t g2 hreach hstep ih =>
    obtain ⟨hwf, hinv⟩ := ih
    rcases handleMove_ok_inv hstep with rfl | ⟨hturn, p, hp, hppl, hvalid, hrun⟩
    · exact ⟨hwf, hinv⟩
    · obtain ⟨⟨hf10, hf1⟩, ⟨hf20, hf2⟩, hcf⟩ := boardAt_ok_some_wf hwf hp
      have hfr : f.1.toNat < 8 := by omega
      have hfc : f.2.toNat < 8 := by omega
      have hposcnt : 0 < countPieces g.board p.player :=
        countPieces_pos hfr hfc (by simp [hcf, cellIsPlayer])
      by_cases hactive : g.status = "active"
      · obtain ⟨b2, hres, hwf2, hcm, hco⟩ :=
          resolveBoard_counts hwf hp (isValidMove_ok_true hvalid)
        obtain ⟨b2x, hresx, hg2⟩ := processMove_ok_inv hrun
        rw [hres] at hresx
        obtain rfl : b2 = b2x := Except.ok.inj hresx
        have hparts := finishMove_parts g b2
        have hgb : g2.board = b2 := by rw [hg2, hparts.1]
        have hgt2 : g2.turn = g.turn.other := by rw [hg2, hparts.2.1]
        refine ⟨by rw [hgb]; exact hwf2, ?_⟩
        intro hst2
        have hst3 : (checkWinCondition { g with board := b2 }).status ≠ "active" := by
          rw [hg2, hparts.2.2.1] at hst2
          exact hst2
        rw [hgb, hgt2]
        rcases checkWin_status { g with board := b2 } with ⟨heq, -, -⟩ | ⟨hzw, -⟩ | ⟨-, hzb, -⟩
        · rw [heq] at hst3
          exact absurd hactive hst3
        · have hzw2 : countPieces b2 Player.white = 0 := hzw
          cases hpw : p.player with
          | white =>
            rw [hpw] at hcm hposcnt
            omega
          | black =>
            have hgt : g.turn = Player.black := by rw [hturn, ← hppl, hpw]
            rw [hgt]
            exact hzw2
        · have hzb2 : countPieces b2 Player.black = 0 := hzb
          cases hpw : p.player with
          | black =>
            rw [hpw] at hcm hposcnt
            omega
          | white =>
            have hgt : g.turn = Player.white := by rw [hturn, ← hppl, hpw]
            rw [hgt]
            exact hzb2
      · have hzero := hinv hactive
        rw [hppl] at hposcnt
        rw [hturn] at hzero
        exact absurd hzero (by omega)

/-! Remaining helper lemmas. -/

theorem boardWF_bounds {b : Board} (hwf : boardWF b) {r c : Nat} (hr : r < 8) (hc : c < 8) :
    r < b.length ∧ c < (b.getD r []).length := by
  obtain ⟨hl, hrows⟩ := hwf
  have hrb : r < b.length := by omega
  have hrl : (b.getD r []).length = 8 := by
    have hg : b.getD r [] = b[r] := by
      rw [List.getD_eq_getElem?_getD, List.getElem?_eq_getElem hrb]
      rfl
    rw [hg]
    exact hrows _ (List.getElem_mem hrb)
  omega

theorem cellAt_boardSet_wf {b : Board} (hwf : boardWF b) {r c : Nat}
    (hr : r < 8) (hc : c < 8) (v : Cell) :
    cellAt (boardSet b r c v) r c = v := by
  obtain ⟨h1, h2⟩ := boardWF_bounds hwf hr hc
  exact cellAt_boardSet_self v h1 h2

theorem mem_betweenExclusive {a b x : Int} :
    x ∈ betweenExclusive a b ↔ min a b < x ∧ x < max a b := by
  unfold betweenExclusive
  constructor
  · intro hx
    obtain ⟨i, hi, hfx⟩ := List.mem_map.mp hx
    rw [List.mem_range] at hi
    omega
  · rintro ⟨h1, h2⟩
    refine List.mem_map.mpr ⟨(x - (min a b + 1)).toNat, ?_, ?_⟩
    · rw [List.mem_range]
      omega
    · omega

theorem pathClearRow_ok {b : Board} {row : Int} (hwf : boardWF b)
    (hr0 : 0 ≤ row) (hr : row < 8) :
    ∀ cols : List Int, (∀ c ∈ cols, 0 ≤ c ∧ c < 8) →
      pathClearRow b row cols
        = .ok (decide (∀ c ∈ cols, cellAt b row.toNat c.toNat = none)) := by
  intro cols
  induction cols with
  | nil => intro _; simp [pathClearRow]
  | cons c rest ih =>
    intro hin
    obtain ⟨hc0, hc8⟩ := hin c (List.mem_cons_self c rest)
    cases hcv : cellAt b row.toNat c.toNat with
    | none =>
      have hstep : pathClearRow b row (c :: rest) = pathClearRow b row rest := by
        conv_lhs => rw [pathClearRow]
        rw [boardAt_eq b row c hwf hr0 hr hc0 hc8, hcv]
        rfl
      rw [hstep, ih (fun x hx => hin x (List.mem_cons_of_mem _ hx))]
      congr 1
      rw [decide_eq_decide]
      simp [List.forall_mem_cons, hcv]
    | some pc =>
      have hstep : pathClearRow b row (c :: rest) = .ok false := by
        conv_lhs => rw [pathClearRow]
        rw [boardAt_eq b row c hwf hr0 hr hc0 hc8, hcv]
        rfl
      rw [hstep]
      congr 1
      have hne : ¬ (∀ x ∈ c :: rest, cellAt b row.toNat x.toNat = none) := by
        intro hall
        have hcc := hall c (List.mem_cons_self c rest)
        rw [hcv] at hcc
        exact absurd hcc (by simp)
      exact (decide_eq_false hne).symm

theorem pathClearCol_ok {b : Board} {col : Int} (hwf : boardWF b)
    (hc0 : 0 ≤ col) (hc : col < 8) :
    ∀ rows : List Int, (∀ r ∈ rows, 0 ≤ r ∧ r < 8) →
      pathClearCol b col rows
        = .ok (decide (∀ r ∈ rows, cellAt b r.toNat col.toNat = none)) := by
  intro rows
  induction rows with
  | nil => intro _; simp [pathClearCol]
  | cons r rest ih =>
    intro hin
    obtain ⟨hr0, hr8⟩ := hin r (List.mem_cons_self r rest)
    cases hcv : cellAt b r.toNat col.toNat with
    | none =>
      have hstep : pathClearCol b col (r :: rest) = pathClearCol b col rest := by
        conv_lhs => rw [pathClearCol]
        rw [boardAt_eq b r col hwf hr0 hr8 hc0 hc, hcv]
        rfl
      rw [hstep, ih (fun x hx => hin x (List.mem_cons_of_mem _ hx))]
      congr 1
      rw [decide_eq_decide]
      simp [List.forall_mem_cons, hcv]
    | some pc =>
      have hstep : pathClearCol b col (r :: rest) = .ok false := by
        conv_lhs => rw [pathClearCol]
        rw [boardAt_eq b r col hwf hr0 hr8 hc0 hc, hcv]
        rfl
      rw [hstep]
      congr 1
      have hne : ¬ (∀ x ∈ r :: rest, cellAt b x.toNat col.toNat = none) := by
        intro hall
        have hcc := hall r (List.mem_cons_self r rest)
        rw [hcv] at hcc
        exact absurd hcc (by simp)
      exact (decide_eq_false hne).symm

theorem reachable_steam_nonneg (catalog : Catalog) (g : Game) (h : Reachable catalog g) :
    0 ≤ g.whiteSteam ∧ 0 ≤ g.blackSteam := by
  induction h with
  | init wn bn => exact ⟨le_refl 0, le_refl 0⟩
  | step g color f t g2 hreach hstep ih =>
    rcases handleMove_ok_inv hstep with rfl | ⟨-, p, -, -, -, hrun⟩
    · exact ih
    · obtain ⟨b2, hres, hg2⟩ := processMove_ok_inv hrun
      obtain ⟨h1, h2⟩ := finishMove_steam_le g b2
      rw [hg2]
      exact ⟨le_trans ih.1 h1, le_trans ih.2 h2⟩

theorem boardAt_row_oob {b : Board} (hwf : boardWF b) {r : Int} (c : Int)
    (hr : ¬ (0 ≤ r ∧ r < 8)) : boardAt b r c = .error () := by
  obtain ⟨hl, -⟩ := hwf
  have hnone : jsGet b r = none := by
    unfold jsGet
    by_cases h0 : 0 ≤ r
    · rw [if_pos h0]
      exact List.getElem?_eq_none (by omega)
    · rw [if_neg h0]
  unfold boardAt
  rw [hnone]

theorem boardAt_col_oob {b : Board} (hwf : boardWF b) {r c : Int}
    (hr : 0 ≤ r ∧ r < 8) (hc : ¬ (0 ≤ c ∧ c < 8)) : boardAt b r c = .ok none := by
  obtain ⟨hl, hrows⟩ := hwf
  have hrn : r.toNat < b.length := by omega
  have hrow : jsGet b r = some (b[r.toNat]) := by
    unfold jsGet
    rw [if_pos hr.1]
    exact List.getElem?_eq_getElem hrn
  have hrl : (b[r.toNat]).length = 8 := hrows _ (List.getElem_mem hrn)
  have hcnone : jsGet (b[r.toNat]) c = none := by
    unfold jsGet
    by_cases h0 : 0 ≤ c
    · rw [if_pos h0]
      exact List.getElem?_eq_none (by omega)
    · rw [if_neg h0]
  unfold boardAt
  rw [hrow]
  simp only [hcnone]

/-- Claim C2 (code bug): for any destination with the row or the column
outside 0..7, `isValidMove` does not reject the move with `false` — it throws
(the row lookup produces `undefined` and indexing it throws, or the
`undefined` target square throws at `targetSquare.player`).  The function has
no bounds check. -/
theorem oob_destination_throws (catalog : Catalog) (b : Board) (f t : Int × Int)
    (piece : Piece) (hwf : boardWF b)
    (hoob : ¬ (0 ≤ t.1 ∧ t.1 < 8 ∧ 0 ≤ t.2 ∧ t.2 < 8)) :
    isValidMove catalog b f t piece = .error () := by
  unfold isValidMove
  by_cases hr : 0 ≤ t.1 ∧ t.1 < 8
  · have hb := @boardAt_col_oob b hwf t.1 t.2 hr (by omega)
    rw [hb]
  · have hb := boardAt_row_oob hwf t.2 hr
    rw [hb]

theorem oob_destination_throws_witness :
    isValidMove demoCatalog demoG0.board (0, 0) (0, 8) demoWhitePiece = .error () :=
  oob_destination_throws demoCatalog demoG0.board (0, 0) (0, 8) demoWhitePiece
    (by decide) (by decide)

/-- Claim C9: a destination occupied by a friendly piece is illegal for every
catalog, every movement-rule set and every board — the validator returns
`false` before consulting any rule; in particular a zero-distance move, whose
destination holds the moving piece itself, is always illegal. -/
theorem friendly_destination_illegal (catalog : Catalog) (b : Board) (f t : Int × Int)
    (piece : Piece) :
    (∀ q : Piece, boardAt b t.1 t.2 = .ok (some (some q)) → q.player = piece.player →
      isValidMove catalog b f t piece = .ok false) ∧
    (boardAt b f.1 f.2 = .ok (some (some piece)) →
      isValidMove catalog b f f piece = .ok false) := by
  have main : ∀ (t2 : Int × Int) (q : Piece), boardAt b t2.1 t2.2 = .ok (some (some q)) →
      q.player = piece.player → isValidMove catalog b f t2 piece = .ok false := by
    intro t2 q hq hpl
    simp only [isValidMove, hq]
    rw [if_pos hpl]
  exact ⟨main t, fun hf => main f piece hf rfl⟩

theorem friendly_destination_illegal_witness :
    isValidMove demoCatalog demoG0.board (0, 0) (0, 0) demoWhitePiece = .ok false :=
  (friendly_destination_illegal demoCatalog demoG0.board (0, 0) (0, 0) demoWhitePiece).2
    (by rfl)

/-- Claim C8: the verdict of `isValidMove` for a piece whose movement rules
are all Hop rules depends only on the destination cell and the coordinate
offsets — two boards that agree on the destination cell, however much they
differ on intervening squares, give the same verdict. -/
theorem hop_ignores_intervening (catalog : Catalog) (b1 b2 : Board) (f t : Int × Int)
    (piece : Piece) (pd : PieceDef)
    (hpd : catalog.lookup piece.type = some pd)
    (hhop : ∀ m ∈ pd.movement, ∃ hOff vOff, m = Movement.hop hOff vOff)
    (hdest : boardAt b1 t.1 t.2 = boardAt b2 t.1 t.2) :
    isValidMove catalog b1 f t piece = isValidMove catalog b2 f t piece := by
  have hrules : ∀ ms : List Movement,
      (∀ m ∈ ms, ∃ hOff vOff, m = Movement.hop hOff vOff) →
      checkRules b1 f.1 f.2 t.1 t.2 ms = checkRules b2 f.1 f.2 t.1 t.2 ms := by
    intro ms
    induction ms with
    | nil => intro _; rfl
    | cons m rest ih =>
      intro hm
      obtain ⟨hOff, vOff, rfl⟩ := hm m (List.mem_cons_self m rest)
      have ihr := ih (fun m2 hm2 => hm m2 (List.mem_cons_of_mem _ hm2))
      simp only [checkRules, ruleCheck]
      cases decide ((t.2 - f.2).natAbs = hOff ∧ (t.1 - f.1).natAbs = vOff)
      · exact ihr
      · rfl
  unfold isValidMove
  rw [hpd, ← hdest]
  cases boardAt b1 t.1 t.2 with
  | error e => rfl
  | ok ts =>
    rcases ts with _ | cellv
    · rfl
    · rcases cellv with _ | q
      · exact hrules pd.movement hhop
      · by_cases hq : q.player = piece.player
        · simp only [if_pos hq]
        · simp only [if_neg hq]
          exact hrules pd.movement hhop

theorem hop_ignores_intervening_witness :
    isValidMove hopCatalog hopBoardA (0, 0) (2, 1) hopPieceW
      = isValidMove hopCatalog hopBoardB (0, 0) (2, 1) hopPieceW :=
  hop_ignores_intervening hopCatalog hopBoardA hopBoardB (0, 0) (2, 1) hopPieceW
    hopKnight (by rfl)
    (fun m hm => by
      simp only [hopKnight, List.mem_singleton] at hm
      exact ⟨1, 2, hm⟩)
    (by rfl)

/-- Claim C5: during a control recomputation, an empty square whose white and
black influence totals are equal (including 0-0) keeps exactly the control
value it held before the recomputation — a tie never resets a previously
controlled empty square. -/
theorem tie_preserves_control (g : Game) (r c : Nat) (hr : r < 8) (hc : c < 8)
    (hempty : cellAt g.board r c = none)
    (htie : influenceAt g.board r c .white = influenceAt g.board r c .black) :
    controlAt (updateSquareControlAfterMove g).squareControl r c
      = controlAt g.squareControl r c := by
  rw [(usc_same g).2.2.2.2.2, controlAt_newControlGrid _ _ hr hc]
  simp only [updatedControlAt, hempty]
  rw [if_neg (by omega), if_neg (by omega)]

theorem tie_preserves_control_witness :
    controlAt (updateSquareControlAfterMove c5Game).squareControl 3 3
      = controlAt c5Game.squareControl 3 3 :=
  tie_preserves_control c5Game 3 3 (by decide) (by decide) (by rfl) (by rfl)

/-- Claim C4 (code bug): the initial session state sent at creation violates
the occupied-implies-controlled invariant — `createGame` leaves the control
map all null (`calculateInitialSquareControl` is never called), so square
(0,0) is occupied yet uncontrolled; after any control recomputation the
invariant does hold (second conjunct, the direct-control rule). -/
theorem initial_control_missing :
    (cellAt demoG0.board 0 0 = some demoWhitePiece ∧
     controlAt demoG0.squareControl 0 0 = none) ∧
    (∀ (g : Game) (r c : Nat), r < 8 → c < 8 → ∀ p : Piece,
      cellAt g.board r c = some p →
      controlAt (updateSquareControlAfterMove g).squareControl r c = some p.player) := by
  refine ⟨⟨by rfl, by rfl⟩, ?_⟩
  intro g r c hr hc p hcell
  rw [(usc_same g).2.2.2.2.2, controlAt_newControlGrid _ _ hr hc]
  simp only [updatedControlAt, hcell]

/-- Claim C3: combat resolution of a validated capture with attacker attack
`a` and defender health `h`: if `a ≥ h` the defender is removed, the attacker
occupies the destination with its origin cleared and its stored position
updated (health and attack untouched); if `a < h` the defender stays at the
destination with health `h - a` and the attacker stays put, the origin cell
unchanged. -/
theorem combat_resolution (g : Game) (f t : Int × Int) (p q : Piece) (g2 : Game)
    (hwf : boardWF g.board)
    (hp : boardAt g.board f.1 f.2 = .ok (some (some p)))
    (hq : boardAt g.board t.1 t.2 = .ok (some (some q)))
    (henemy : q.player ≠ p.player)
    (hrun : processMove g f t = .ok g2) :
    (q.health ≤ p.attack →
      cellAt g2.board t.1.toNat t.2.toNat = some { p with position := t } ∧
      cellAt g2.board f.1.toNat f.2.toNat = none) ∧
    (p.attack < q.health →
      cellAt g2.board t.1.toNat t.2.toNat = some { q with health := q.health - p.attack } ∧
      cellAt g2.board f.1.toNat f.2.toNat = some p) := by
  obtain ⟨⟨hf10, hf1⟩, ⟨hf20, hf2⟩, hcf⟩ := boardAt_ok_some_wf hwf hp
  obtain ⟨⟨ht10, ht1⟩, ⟨ht20, ht2⟩, hct⟩ := boardAt_ok_some_wf hwf hq
  have hfr : f.1.toNat < 8 := by omega
  have hfc : f.2.toNat < 8 := by omega
  have htr : t.1.toNat < 8 := by omega
  have htc : t.2.toNat < 8 := by omega
  have hne : f.1.toNat ≠ t.1.toNat ∨ f.2.toNat ≠ t.2.toNat := by
    by_contra hcon
    push_neg at hcon
    rw [hcon.1, hcon.2, hct] at hcf
    have hqp : q = p := by simpa using hcf
    exact henemy (hqp ▸ rfl)
  obtain ⟨b2x, hres, hg2⟩ := processMove_ok_inv hrun
  have hgb : g2.board = b2x := by rw [hg2, (finishMove_parts g b2x).1]
  constructor
  · intro hkill
    have hresk := resolveBoard_kill hp hq henemy (by omega)
    rw [hresk] at hres
    obtain rfl : (boardSet (boardSet g.board t.1.toNat t.2.toNat
        (some { p with position := t })) f.1.toNat f.2.toNat none) = b2x :=
      Except.ok.inj hres
    rw [hgb]
    constructor
    · rw [cellAt_boardSet_other _ (by omega)]
      exact cellAt_boardSet_wf hwf htr htc _
    · have hwf1 := boardWF_boardSet t.1.toNat t.2.toNat
        (some { p with position := t }) hwf htr
      exact cellAt_boardSet_wf hwf1 hfr hfc _
  · intro hsurv
    have hress := resolveBoard_survive hp hq henemy (by omega)
    rw [hress] at hres
    obtain rfl : (boardSet g.board t.1.toNat t.2.toNat
        (some { q with health := q.health - p.attack })) = b2x := Except.ok.inj hres
    rw [hgb]
    constructor
    · exact cellAt_boardSet_wf hwf htr htc _
    · rw [cellAt_boardSet_other _ (by omega)]
      exact hcf

theorem combat_resolution_witness :
    cellAt c3After.board 0 1
        = some { c3Defender with health := c3Defender.health - c3Attacker.attack } ∧
    cellAt c3After.board 0 0 = some c3Attacker :=
  (combat_resolution c3Game (0, 0) (0, 1) c3Attacker c3Defender c3After
    (by decide) (by rfl) (by rfl) (by decide) (by rfl)).2 (by decide)

/-- Claim C7: for in-range origin and destination, a Straight rule is
satisfied exactly when origin and destination share the rule's axis, the
offset magnitude lies in `[1, range]`, and every square strictly between them
is empty (destination exempt); otherwise — in particular whenever a strictly
intermediate square is occupied — the rule yields `false`, regardless of the
destination cell. -/
theorem straight_rule_iff (b : Board) (dir : Dir) (range : Nat) (f t : Int × Int)
    (hwf : boardWF b)
    (hf1 : 0 ≤ f.1 ∧ f.1 < 8) (hf2 : 0 ≤ f.2 ∧ f.2 < 8)
    (ht1 : 0 ≤ t.1 ∧ t.1 < 8) (ht2 : 0 ≤ t.2 ∧ t.2 < 8) :
    (ruleCheck b f.1 f.2 t.1 t.2 (.straight dir range) = .ok true
      ↔ straightLegalSpec b dir range f.1 f.2 t.1 t.2) ∧
    (ruleCheck b f.1 f.2 t.1 t.2 (.straight dir range) = .ok false
      ↔ ¬ straightLegalSpec b dir range f.1 f.2 t.1 t.2) := by
  cases dir with
  | horizontal =>
    simp only [straightLegalSpec]
    by_cases hax : f.1 = t.1
    · by_cases hd : 0 < (t.2 - f.2).natAbs ∧ (t.2 - f.2).natAbs ≤ range
      · have hcols : ∀ c ∈ betweenExclusive f.2 t.2, 0 ≤ c ∧ c < 8 := by
          intro c hcmem
          obtain ⟨h1, h2⟩ := mem_betweenExclusive.mp hcmem
          constructor <;> omega
        have hrule : ruleCheck b f.1 f.2 t.1 t.2 (.straight .horizontal range)
            = .ok (decide (∀ c ∈ betweenExclusive f.2 t.2,
                cellAt b f.1.toNat c.toNat = none)) := by
          simp only [ruleCheck]
          rw [if_pos hax, if_pos hd]
          exact pathClearRow_ok hwf hf1.1 hf1.2 _ hcols
        rw [hrule]
        have hPiff : (∀ c ∈ betweenExclusive f.2 t.2, cellAt b f.1.toNat c.toNat = none)
            ↔ (∀ c : Int, min f.2 t.2 < c → c < max f.2 t.2 →
                cellAt b f.1.toNat c.toNat = none) := by
          constructor
          · intro hP c h1 h2
            exact hP c (mem_betweenExclusive.mpr ⟨h1, h2⟩)
          · intro hP c hcmem
            obtain ⟨h1, h2⟩ := mem_betweenExclusive.mp hcmem
            exact hP c h1 h2
        constructor
        · constructor
          · intro hok
            have hP := of_decide_eq_true (Except.ok.inj hok)
            exact ⟨hax, hd.1, hd.2, hPiff.mp hP⟩
          · rintro ⟨-, -, -, hP⟩
            rw [decide_eq_true (hPiff.mpr hP)]
        · constructor
          · intro hok hspec
            rw [decide_eq_true (hPiff.mpr hspec.2.2.2)] at hok
            exact absurd hok (by simp)
          · intro hnspec
            by_cases hP : ∀ c ∈ betweenExclusive f.2 t.2, cellAt b f.1.toNat c.toNat = none
            · exact absurd ⟨hax, hd.1, hd.2, hPiff.mp hP⟩ hnspec
            · rw [decide_eq_false hP]
      · have hrule : ruleCheck b f.1 f.2 t.1 t.2 (.straight .horizontal range)
            = .ok false := by
          simp only [ruleCheck]
          rw [if_pos hax, if_neg hd]
        rw [hrule]
        constructor
        · constructor
          · intro hok
            exact absurd hok (by simp)
          · rintro ⟨-, h1, h2, -⟩
            exact absurd (⟨by omega, h2⟩ : 0 < (t.2 - f.2).natAbs ∧ _ ≤ range) hd
        · constructor
          · intro _ hspec
            obtain ⟨-, h1, h2, -⟩ := hspec
            exact hd ⟨by omega, h2⟩
          · intro _
            rfl
    · have hrule : ruleCheck b f.1 f.2 t.1 t.2 (.straight .horizontal range)
          = .ok false := by
        simp only [ruleCheck]
        rw [if_neg hax]
      rw [hrule]
      constructor
      · constructor
        · intro hok
          exact absurd hok (by simp)
        · rintro ⟨h, -⟩
          exact absurd h hax
      · constructor
        · intro _ hspec
          exact hax hspec.1
        · intro _
          rfl
  | vertical =>
    simp only [straightLegalSpec]
    by_cases hax : f.2 = t.2
    · by_cases hd : 0 < (t.1 - f.1).natAbs ∧ (t.1 - f.1).natAbs ≤ range
      · have hrows : ∀ r ∈ betweenExclusive f.1 t.1, 0 ≤ r ∧ r < 8 := by
          intro r hrmem
          obtain ⟨h1, h2⟩ := mem_betweenExclusive.mp hrmem
          constructor <;> omega
        have hrule : ruleCheck b f.1 f.2 t.1 t.2 (.straight .vertical range)
            = .ok (decide (∀ r ∈ betweenExclusive f.1 t.1,
                cellAt b r.toNat f.2.toNat = none)) := by
          simp only [ruleCheck]
          rw [if_pos hax, if_pos hd]
          exact pathClearCol_ok hwf hf2.1 hf2.2 _ hrows
        rw [hrule]
        have hPiff : (∀ r ∈ betweenExclusive f.1 t.1, cellAt b r.toNat f.2.toNat = none)
            ↔ (∀ r : Int, min f.1 t.1 < r → r < max f.1 t.1 →
                cellAt b r.toNat f.2.toNat = none) := by
          constructor
          · intro hP r h1 h2
            exact hP r (mem_betweenExclusive.mpr ⟨h1, h2⟩)
          · intro hP r hrmem
            obtain ⟨h1, h2⟩ := mem_betweenExclusive.mp hrmem
            exact hP r h1 h2
        constructor
        · constructor
          · intro hok
            have hP := of_decide_eq_true (Except.ok.inj hok)
            exact ⟨hax, hd.1, hd.2, hPiff.mp hP⟩
          · rintro ⟨-, -, -, hP⟩
            rw [decide_eq_true (hPiff.mpr hP)]
        · constructor
          · intro hok hspec
            rw [decide_eq_true (hPiff.mpr hspec.2.2.2)] at hok
            exact absurd hok (by simp)
          · intro hnspec
            by_cases hP : ∀ r ∈ betweenExclusive f.1 t.1, cellAt b r.toNat f.2.toNat = none
            · exact absurd ⟨hax, hd.1, hd.2, hPiff.mp hP⟩ hnspec
            · rw [decide_eq_false hP]
      · have hrule : ruleCheck b f.1 f.2 t.1 t.2 (.straight .vertical range)
            = .ok false := by
          simp only [ruleCheck]
          rw [if_pos hax, if_neg hd]
        rw [hrule]
        constructor
        · constructor
          · intro hok
            exact absurd hok (by simp)
          · rintro ⟨-, h1, h2, -⟩
            exact absurd (⟨by omega, h2⟩ : 0 < (t.1 - f.1).natAbs ∧ _ ≤ range) hd
        · constructor
          · intro _ hspec
            obtain ⟨-, h1, h2, -⟩ := hspec
            exact hd ⟨by omega, h2⟩
          · intro _
            rfl
    · have hrule : ruleCheck b f.1 f.2 t.1 t.2 (.straight .vertical range)
          = .ok false := by
        simp only [ruleCheck]
        rw [if_neg hax]
      rw [hrule]
      constructor
      · constructor
        · intro hok
          exact absurd hok (by simp)
        · rintro ⟨h, -⟩
          exact absurd h hax
      · constructor
        · intro _ hspec
          exact hax hspec.1
        · intro _
          rfl

theorem straight_rule_iff_witness :
    (ruleCheck emptyBoard 0 0 0 2 (.straight .horizontal 3) = .ok true
      ↔ straightLegalSpec emptyBoard .horizontal 3 0 0 0 2) ∧
    (ruleCheck emptyBoard 0 0 0 2 (.straight .horizontal 3) = .ok false
      ↔ ¬ straightLegalSpec emptyBoard .horizontal 3 0 0 0 2) :=
  straight_rule_iff emptyBoard .horizontal 3 (0, 0) (0, 2) (by decide)
    (by decide) (by decide) (by decide) (by decide)

theorem initial_control_missing_witness :
    controlAt (updateSquareControlAfterMove demoG0).squareControl 0 0
      = some Player.white :=
  initial_control_missing.2 demoG0 0 0 (by decide) (by decide) demoWhitePiece (by rfl)

/-- Claim C6: steam accounting — in any reachable state both steam counters
are non-negative; a handled request never decreases either counter; and when
the request actually applies a move, the mover's counter grows by exactly the
number of squares the recomputed control map marks for the mover while the
opponent's counter is unchanged. -/
theorem steam_accrual (catalog : Catalog) (g : Game) (color : Player)
    (f t : Int × Int) (g2 : Game)
    (hr : Reachable catalog g)
    (hstep : handleMove catalog g color f t = .ok g2) :
    0 ≤ g.whiteSteam ∧ 0 ≤ g.blackSteam ∧
    g.whiteSteam ≤ g2.whiteSteam ∧ g.blackSteam ≤ g2.blackSteam ∧
    (processMove g f t = .ok g2 →
      (g.turn = .white →
        g2.whiteSteam = g.whiteSteam + (countControlled g2.squareControl .white : Int) ∧
        g2.blackSteam = g.blackSteam) ∧
      (g.turn = .black →
        g2.blackSteam = g.blackSteam + (countControlled g2.squareControl .black : Int) ∧
        g2.whiteSteam = g.whiteSteam)) := by
  obtain ⟨hw0, hb0⟩ := reachable_steam_nonneg catalog g hr
  have hdelta : processMove g f t = .ok g2 →
      (g.turn = .white →
        g2.whiteSteam = g.whiteSteam + (countControlled g2.squareControl .white : Int) ∧
        g2.blackSteam = g.blackSteam) ∧
      (g.turn = .black →
        g2.blackSteam = g.blackSteam + (countControlled g2.squareControl .black : Int) ∧
        g2.whiteSteam = g.whiteSteam) := by
    intro hpm
    obtain ⟨b2, hres, hg2⟩ := processMove_ok_inv hpm
    obtain ⟨huw, hub⟩ := finishMove_steam g b2
    constructor
    · intro hturn
      obtain ⟨e1, e2⟩ := huw hturn
      constructor
      · rw [hg2, (finishMove_parts g b2).2.2.2.1]
        exact e1
      · rw [hg2]
        exact e2
    · intro hturn
      obtain ⟨e1, e2⟩ := hub hturn
      constructor
      · rw [hg2, (finishMove_parts g b2).2.2.2.1]
        exact e1
      · rw [hg2]
        exact e2
  rcases handleMove_ok_inv hstep with rfl | ⟨-, p, -, -, -, hrun⟩
  · exact ⟨hw0, hb0, le_refl _, le_refl _, hdelta⟩
  · obtain ⟨b2, hres, hg2⟩ := processMove_ok_inv hrun
    obtain ⟨h1, h2⟩ := finishMove_steam_le g b2
    refine ⟨hw0, hb0, ?_, ?_, hdelta⟩
    · rw [hg2]
      exact h1
    · rw [hg2]
      exact h2

theorem steam_accrual_witness :
    0 ≤ demoG0.whiteSteam ∧ 0 ≤ demoG0.blackSteam ∧
    demoG0.whiteSteam ≤ demoG1.whiteSteam ∧ demoG0.blackSteam ≤ demoG1.blackSteam ∧
    (processMove demoG0 (0, 0) (0, 1) = .ok demoG1 →
      (demoG0.turn = .white →
        demoG1.whiteSteam
          = demoG0.whiteSteam + (countControlled demoG1.squareControl .white : Int) ∧
        demoG1.blackSteam = demoG0.blackSteam) ∧
      (demoG0.turn = .black →
        demoG1.blackSteam
          = demoG0.blackSteam + (countControlled demoG1.squareControl .black : Int) ∧
        demoG1.whiteSteam = demoG0.whiteSteam)) :=
  steam_accrual demoCatalog demoG0 .white (0, 0) (0, 1) demoG1
    (Reachable.init (some "Ann") (some "Bob")) (by rfl)

/-- Claim C10: a validated move never decreases the mover's piece count,
removes at most one piece and only from the opposing side, and the win check
after the move can set a terminal status only in favour of the side that just
moved. -/
theorem capture_single_enemy (catalog : Catalog) (g : Game) (p : Piece)
    (f t : Int × Int) (g2 : Game)
    (hwf : boardWF g.board)
    (hp : boardAt g.board f.1 f.2 = .ok (some (some p)))
    (hvalid : isValidMove catalog g.board f t p = .ok true)
    (hrun : processMove g f t = .ok g2) :
    countPieces g2.board p.player = countPieces g.board p.player ∧
    (countPieces g2.board p.player.other = countPieces g.board p.player.other ∨
     countPieces g2.board p.player.other + 1 = countPieces g.board p.player.other) ∧
    (g2.status = g.status ∨ g2.status = sideName g p.player ++ "_wins") := by
  obtain ⟨⟨hf10, hf1⟩, ⟨hf20, hf2⟩, hcf⟩ := boardAt_ok_some_wf hwf hp
  have hfr : f.1.toNat < 8 := by omega
  have hfc : f.2.toNat < 8 := by omega
  have hpos : 0 < countPieces g.board p.player :=
    countPieces_pos hfr hfc (by simp [hcf, cellIsPlayer])
  obtain ⟨b2, hres, hwf2, hcm, hco⟩ :=
    resolveBoard_counts hwf hp (isValidMove_ok_true hvalid)
  obtain ⟨b2x, hresx, hg2⟩ := processMove_ok_inv hrun
  rw [hres] at hresx
  obtain rfl : b2 = b2x := Except.ok.inj hresx
  have hgb : g2.board = b2 := by rw [hg2, (finishMove_parts g b2).1]
  refine ⟨by rw [hgb]; exact hcm, by rw [hgb]; exact hco, ?_⟩
  have hgs : g2.status = (checkWinCondition { g with board := b2 }).status := by
    rw [hg2, (finishMove_parts g b2).2.2.1]
  rw [hgs]
  rcases checkWin_status { g with board := b2 } with ⟨heq, -, -⟩ | ⟨hzw, heqs⟩ | ⟨-, hzb, heqs⟩
  · left
    rw [heq]
  · have hzw2 : countPieces b2 Player.white = 0 := hzw
    cases hpw : p.player with
    | white =>
      rw [hpw] at hcm hpos
      omega
    | black =>
      right
      rw [heqs]
      rfl
  · have hzb2 : countPieces b2 Player.black = 0 := hzb
    cases hpw : p.player with
    | black =>
      rw [hpw] at hcm hpos
      omega
    | white =>
      right
      rw [heqs]
      rfl

theorem capture_single_enemy_witness :
    countPieces demoG1.board Player.white = countPieces demoG0.board Player.white ∧
    (countPieces demoG1.board Player.white.other
        = countPieces demoG0.board Player.white.other ∨
     countPieces demoG1.board Player.white.other + 1
        = countPieces demoG0.board Player.white.other) ∧
    (demoG1.status = demoG0.status ∨
     demoG1.status = sideName demoG0 Player.white ++ "_wins") :=
  capture_single_enemy demoCatalog demoG0 demoWhitePiece (0, 0) (0, 1) demoG1
    (by decide) (by rfl) (by rfl) (by rfl)

/-- Claim C1: in a reachable session whose status is a terminal `_wins`
value, a handled move request never changes the state — any `ok` outcome of
the handler is the unchanged session, so board, square control, steam
counters, turn and status are all identical. -/
theorem terminal_rejects_all_moves (catalog : Catalog) (g : Game) (winner : String)
    (hr : Reachable catalog g) (hs : g.status = winner ++ "_wins")
    (color : Player) (f t : Int × Int) (g2 : Game)
    (hstep : handleMove catalog g color f t = .ok g2) : g2 = g := by
  obtain ⟨hwf, hinv⟩ := reachable_inv catalog g hr
  have hzero : countPieces g.board g.turn = 0 := by
    apply hinv
    rw [hs]
    exact wins_ne_active winner
  rcases handleMove_ok_inv hstep with rfl | ⟨hturn, p, hp, hppl, hvalid, hrun⟩
  · rfl
  · obtain ⟨⟨hf10, hf1⟩, ⟨hf20, hf2⟩, hcf⟩ := boardAt_ok_some_wf hwf hp
    have hfr : f.1.toNat < 8 := by omega
    have hfc : f.2.toNat < 8 := by omega
    have hpos : 0 < countPieces g.board p.player :=
      countPieces_pos hfr hfc (by simp [hcf, cellIsPlayer])
    rw [hppl, ← hturn] at hpos
    omega

theorem terminal_rejects_all_moves_witness :
    (handleMove demoCatalog demoG1 .black (0, 1) (0, 0)).toOption.getD demoG0 = demoG1 :=
  terminal_rejects_all_moves demoCatalog demoG1 "Ann"
    (Reachable.step demoG0 .white (0, 0) (0, 1) demoG1
      (Reachable.init (some "Ann") (some "Bob")) (by rfl))
    (by rfl) .black (0, 1) (0, 0)
    ((handleMove demoCatalog demoG1 .black (0, 1) (0, 0)).toOption.getD demoG0)
    (by rfl)

end ChessLike
